import Mathlib

/-!
Verification of the ttf2stitch core against its specification.

The Python modules under `src/ttf2stitch/` and `server_cache.py` are shallowly
embedded below.  Python strings of bitmap rows are modelled as `List Char`,
Python floats as `ℚ` (every arithmetic step the theorems depend on is exact in
both semantics), Python ints as `ℤ`/`ℕ`, and fallible constructors as `Except`.
-/

set_option autoImplicit false

namespace Py

/-- Python `int(x)` on a float: truncation toward zero. -/
def pyInt (q : ℚ) : ℤ :=
  if 0 ≤ q then ⌊q⌋ else ⌈q⌉

/-- Python `round(x)` on a float: round half to even. -/
def pyRound (q : ℚ) : ℤ :=
  let f : ℤ := ⌊q⌋
  if q - f < 1/2 then f
  else if 1/2 < q - f then f + 1
  else if f % 2 = 0 then f else f + 1

/-- Python slice `s[a:b]` for `0 ≤ a` and `0 ≤ b`. -/
def pySlice {α : Type} (l : List α) (a b : ℕ) : List α :=
  (l.take b).drop a

/-- Python builtin `max(a, b)`. -/
def pyMax (a b : ℤ) : ℤ :=
  if b ≤ a then a else b

/-- Python builtin `min(a, b)`. -/
def pyMin (a b : ℤ) : ℤ :=
  if a ≤ b then a else b

end Py

namespace Sampler

/-!
Embedding of `src/ttf2stitch/sampler.py`.

A grayscale PIL image is modelled by its size and an intensity function
`px x y` (the value `img.load()[x, y]`, i.e. `x` is the column).
-/

/-- A grayscale PIL image in mode "L". -/
structure PImage where
  width : ℕ
  height : ℕ
  px : ℕ → ℕ → ℕ

/-- The clipped sampling sub-rectangle `(x1, y1, x2, y2)` computed at the top
of `_sample_cell`. -/
def cellRect (img : PImage) (cx cy cell_w cell_h half_sample : ℚ) : ℤ × ℤ × ℤ × ℤ :=
  (Py.pyMax 0 (Py.pyInt (cx - cell_w * half_sample)),
   Py.pyMax 0 (Py.pyInt (cy - cell_h * half_sample)),
   Py.pyMin (img.width : ℤ) (Py.pyInt (cx + cell_w * half_sample)),
   Py.pyMin (img.height : ℤ) (Py.pyInt (cy + cell_h * half_sample)))

/-- Number of pixels of the cropped region `img.crop((x1, y1, x2, y2))`:
`len(pixels)` in `_sample_cell`. -/
def cellTotal (x1 y1 x2 y2 : ℤ) : ℕ :=
  (x2 - x1).toNat * (y2 - y1).toNat

/-- Number of dark pixels (`p < 128`) of the cropped region. -/
def cellDark (img : PImage) (x1 y1 x2 y2 : ℤ) : ℕ :=
  ((List.range (y2 - y1).toNat).map (fun dy =>
    ((List.range (x2 - x1).toNat).filter (fun dx =>
      img.px (x1.toNat + dx) (y1.toNat + dy) < 128)).length)).sum

/-- `_sample_cell`: sample the center region of one cell, returning `'1'` if
filled and `'0'` otherwise. -/
def sampleCell (img : PImage) (cx cy cell_w cell_h half_sample fill_threshold : ℚ) : Char :=
  let r := cellRect img cx cy cell_w cell_h half_sample
  let x1 := r.1; let y1 := r.2.1; let x2 := r.2.2.1; let y2 := r.2.2.2
  if x2 ≤ x1 ∨ y2 ≤ y1 then '0'
  else
    let total := cellTotal x1 y1 x2 y2
    if total = 0 then '0'
    else if (cellDark img x1 y1 x2 y2 : ℚ) / (total : ℚ) > fill_threshold then '1' else '0'

/-- `sample_bitmap`: divide the bounding box into a `num_rows × num_cols` grid
and sample the center region of every cell. -/
def sample_bitmap (img : PImage) (bbox : ℤ × ℤ × ℤ × ℤ) (num_rows num_cols : ℕ)
    (sample_pct fill_threshold : ℚ) : List (List Char) :=
  let left := bbox.1; let top := bbox.2.1; let right := bbox.2.2.1; let bottom := bbox.2.2.2
  let content_w : ℚ := (right : ℚ) - (left : ℚ)
  let content_h : ℚ := (bottom : ℚ) - (top : ℚ)
  let cell_w := content_w / (num_cols : ℚ)
  let cell_h := content_h / (num_rows : ℚ)
  let half_sample := sample_pct / 2
  (List.range num_rows).map (fun (row : ℕ) =>
    (List.range num_cols).map (fun (col : ℕ) =>
      sampleCell img ((left : ℚ) + ((col : ℚ) + 1/2) * cell_w)
        ((top : ℚ) + ((row : ℚ) + 1/2) * cell_h) cell_w cell_h half_sample fill_threshold))

/-- A bitmap row consisting only of `'0'` characters. -/
def rowZero (row : List Char) : Bool :=
  row.all (fun c => c = '0')

/-- Column `i` holds `'0'` in every row (rows are of equal length throughout
the pipeline, so the out-of-range default is never consulted). -/
def colZero (b : List (List Char)) (i : ℕ) : Bool :=
  b.all (fun row => row.getD i '0' = '0')

/-- `trim_bitmap`: remove all-zero rows from the top then the bottom, then
all-zero columns from the left then the right.  The two `while` loops are
`dropWhile` from the front and from the back; the two `for`/`break` column
loops are `takeWhile` counts over the ascending and descending column ranges. -/
def trim_bitmap (bitmap : List (List Char)) : List (List Char) :=
  let b1 := bitmap.dropWhile rowZero
  let b2 := (b1.reverse.dropWhile rowZero).reverse
  match b2 with
  | [] => []
  | r0 :: _ =>
    let width := r0.length
    let left_trim := ((List.range width).takeWhile (fun i => colZero b2 i)).length
    let right_trim :=
      (((List.range' left_trim (width - left_trim)).reverse).takeWhile
        (fun i => colZero b2 i)).length
    if 0 < left_trim ∨ 0 < right_trim then
      b2.map (fun row => Py.pySlice row left_trim (width - right_trim))
    else b2

end Sampler

namespace Schema

/-!
Embedding of `src/ttf2stitch/schema.py` (`GlyphV2`).  Pydantic runs the two
field validators in field order and then the model validator; any raised
`ValueError` aborts construction, which we model with `Except`.
-/

/-- A validated glyph record. -/
structure GlyphV2 where
  width : ℤ
  bitmap : List (List Char)

/-- Construct a `GlyphV2`, running the validators `width_positive`,
`bitmap_not_empty` and `bitmap_rows_match_width` in pydantic's order. -/
def mkGlyphV2 (width : ℤ) (bitmap : List (List Char)) : Except String GlyphV2 :=
  if width < 1 then .error "Glyph width must be >= 1"
  else if bitmap = [] then .error "Glyph bitmap must have at least one row"
  else if bitmap.all (fun row => (row.length : ℤ) = width) then .ok ⟨width, bitmap⟩
  else .error "Bitmap row has wrong length"

end Schema

namespace Config

/-!
Embedding of `src/ttf2stitch/config.py` (the constants the claims consult).
Python sets of characters are modelled as `List Char` with `contains`
membership.
-/

/-- `BASIC_CHARSET`. -/
def BASIC_CHARSET : List Char :=
  "ABCDEFGHIJKLMNOPQRSTUVWXYZabcdefghijklmnopqrstuvwxyz0123456789 !\"#%&'()*+,-./:;?".toList

/-- `EXTENDED_CHARSET = BASIC_CHARSET | set("@$^[]{}\\<>=_`~")`. -/
def EXTENDED_CHARSET : List Char :=
  BASIC_CHARSET ++ "@$^[]\x7b\x7d\\<>=_`~".toList

/-- `DEFAULT_EXCLUDE_CHARS = set("|~_")`. -/
def DEFAULT_EXCLUDE_CHARS : List Char := ['|', '~', '_']

/-- `CELL_UNITS_MIN`. -/
def CELL_UNITS_MIN : ℕ := 20

/-- `CELL_UNITS_MAX`. -/
def CELL_UNITS_MAX : ℕ := 120

end Config

namespace Filters

/-!
Embedding of `src/ttf2stitch/filters.py`.  The `cmap` dict is modelled as a
list of `(codepoint, glyph name)` pairs in iteration order.
-/

/-- `get_charset`: resolve a charset name, raising for any other name. -/
def get_charset (name : String) : Except String (List Char) :=
  if name = "basic" then .ok Config.BASIC_CHARSET
  else if name = "extended" then .ok Config.EXTENDED_CHARSET
  else .error "Unknown charset"

/-- `is_printable_char`, modelled on the ASCII range (the only range the two
charsets contain, and membership in a charset is required downstream): space
is printable, ASCII control characters (category Cc: codepoints `< 32` and
`127`) are not, the remaining ASCII characters are. -/
def is_printable_char (c : Char) : Bool :=
  if c = ' ' then true
  else 32 < c.toNat && c.toNat < 127

/-- Stable insertion of a pair into a codepoint-sorted list (helper for the
embedding of Python's stable `result.sort(key=lambda x: x[0])`). -/
def insertByCp (p : ℕ × Char) : List (ℕ × Char) → List (ℕ × Char)
  | [] => [p]
  | q :: qs => if p.1 ≤ q.1 then p :: q :: qs else q :: insertByCp p qs

/-- Stable sort by ascending codepoint. -/
def sortByCp : List (ℕ × Char) → List (ℕ × Char)
  | [] => []
  | p :: ps => insertByCp p (sortByCp ps)

/-- One loop step of `filter_glyphs`: keep `(codepoint, chr(codepoint))` when
the character is not excluded, is printable, and belongs to the charset. -/
def keepEntry (allowed exclude : List Char) (cp : ℕ) : Option (ℕ × Char) :=
  let c := Char.ofNat cp
  if exclude.contains c then none
  else if ¬ is_printable_char c then none
  else if ¬ allowed.contains c then none
  else some (cp, c)

/-- `filter_glyphs`: filter cmap entries by charset and exclusions, sorted by
ascending codepoint. -/
def filter_glyphs (cmap : List (ℕ × String)) (charset : String) (exclude : List Char) :
    Except String (List (ℕ × Char)) :=
  (get_charset charset).map (fun allowed =>
    sortByCp (cmap.filterMap (fun e => keepEntry allowed exclude e.1)))

/-- The effective exclusion set of `rasterize_font`:
`opts.exclude_chars if opts.exclude_chars is not None else DEFAULT_EXCLUDE_CHARS`. -/
def effectiveExclude (exclude_chars : Option (List Char)) : List Char :=
  match exclude_chars with
  | some s => s
  | none => Config.DEFAULT_EXCLUDE_CHARS

end Filters

namespace Utils

/-!
Embedding of `src/ttf2stitch/utils.py` (`generate_slug` and the slug
resolution step of `resolve_font_metadata`).  Strings are modelled as
`List Char`; `str.lower()` is modelled by ASCII lowering and the regex
class `[\s_]` by the ASCII whitespace characters plus underscore (Unicode
whitespace and non-ASCII lowercase images are dropped by the later
`[^a-z0-9-]` filter in both semantics, so the theorems are unaffected).
-/

/-- A character matched by the regex class `[\s_]`. -/
def isWsU (c : Char) : Bool :=
  c = ' ' || c = '\t' || c = '\n' || c = '\r' || c = '\x0b' || c = '\x0c' || c = '_'

/-- `re.sub(r"[\s_]+", "-", s)`, written with a run flag: each maximal run
of whitespace/underscore emits a single hyphen (at its first character), and
every other character is copied. -/
def subWsGo (inRun : Bool) : List Char → List Char
  | [] => []
  | c :: cs =>
    if isWsU c then
      if inRun then subWsGo true cs else '-' :: subWsGo true cs
    else c :: subWsGo false cs

/-- `re.sub(r"[\s_]+", "-", s)`: replace each maximal run of whitespace or
underscore with a single hyphen. -/
def subWs (l : List Char) : List Char :=
  subWsGo false l

/-- A lowercase-alphanumeric character `[a-z0-9]`. -/
def isAlnumLower (c : Char) : Bool :=
  ('a' ≤ c && c ≤ 'z') || ('0' ≤ c && c ≤ '9')

/-- A character kept by `re.sub(r"[^a-z0-9-]", "", s)`. -/
def isSlugChar (c : Char) : Bool :=
  isAlnumLower c || c = '-'

/-- `re.sub(r"-{2,}", "-", s)` written with a run flag: each maximal run of
hyphens emits a single hyphen (at its first character); other characters are
copied.  (Runs of length one are unchanged, as in the source regex.) -/
def collapseGo (prevHyphen : Bool) : List Char → List Char
  | [] => []
  | c :: cs =>
    if c = '-' then
      if prevHyphen then collapseGo true cs else '-' :: collapseGo true cs
    else c :: collapseGo false cs

/-- `re.sub(r"-{2,}", "-", s)`: collapse each run of hyphens to a single
hyphen. -/
def collapseHyphens (l : List Char) : List Char :=
  collapseGo false l

/-- `s.strip("-")`: drop leading and trailing hyphens. -/
def stripHyphens (l : List Char) : List Char :=
  (((l.dropWhile (fun c => c = '-')).reverse.dropWhile (fun c => c = '-'))).reverse

/-- `generate_slug`: lowercase, turn whitespace/underscore runs into hyphens,
drop everything outside `[a-z0-9-]`, collapse repeated hyphens, strip
boundary hyphens. -/
def generate_slug (name : List Char) : List Char :=
  stripHyphens (collapseHyphens ((subWs (name.map Char.toLower)).filter isSlugChar))

/-- The slug resolution step of `resolve_font_metadata`:
`slug = opts.font_id or generate_slug(display_name)` (Python `or`: the
override is taken whenever it is a non-empty string). -/
def resolveSlug (font_id : Option (List Char)) (display_name : List Char) : List Char :=
  match font_id with
  | some f => if f = [] then generate_slug display_name else f
  | none => generate_slug display_name

/-- Recognizer for the regex `^[a-z0-9]+(-[a-z0-9]+)*$`, as a two-state
automaton: the flag records whether the next character must start a new
`[a-z0-9]+` group (at the start of the string and after each hyphen). -/
def kebabRun (expectGroup : Bool) : List Char → Bool
  | [] => !expectGroup
  | c :: cs =>
    if isAlnumLower c then kebabRun false cs
    else if c = '-' && !expectGroup then kebabRun true cs
    else false

/-- `s` matches `^[a-z0-9]+(-[a-z0-9]+)*$`. -/
def matchesKebab (l : List Char) : Bool :=
  kebabRun true l

/-- No two adjacent hyphens. -/
def noDouble : List Char → Bool
  | [] => true
  | [_] => true
  | a :: b :: rest => !(a = '-' && b = '-') && noDouble (b :: rest)

end Utils

namespace CellDetector

/-!
Embedding of `src/ttf2stitch/cell_detector.py` (`auto_detect_cell_units`).
The font-file reading front half (`get_glyph_dimensions`) produces the list
of `(width, height)` ink bounds of the available uppercase glyphs; the
scoring search is embedded from that list on, with the float values as `ℚ`.
-/

/-- One value `val` counts toward candidate `candidate`'s score when
`rounded > 0 and abs(ratio - rounded) < 0.15` for `ratio = val / candidate`. -/
def hitsCandidate (val : ℚ) (candidate : ℕ) : Bool :=
  let ratio := val / (candidate : ℚ)
  let rounded := Py.pyRound ratio
  decide (0 < rounded) && decide (|ratio - (rounded : ℚ)| < 15/100)

/-- `score` accumulated by the inner loop for one candidate. -/
def score (values : List ℚ) (candidate : ℕ) : ℕ :=
  (values.filter (fun v => hitsCandidate v candidate)).length

/-- The candidate loop of `auto_detect_cell_units`, carrying
`(best_units, best_score)`; `best_score` is the normalized score and the
update condition is strict (`normalized > best_score`). -/
def detectLoop (values : List ℚ) : List ℕ → ℕ × ℚ → ℕ × ℚ
  | [], best => best
  | candidate :: rest, best =>
    let normalized : ℚ := (score values candidate : ℚ) / (values.length : ℚ)
    detectLoop values rest (if best.2 < normalized then (candidate, normalized) else best)

/-- `all_values`: widths and heights flattened in order. -/
def allValues (dimensions : List (ℚ × ℚ)) : List ℚ :=
  dimensions.flatMap (fun d => [d.1, d.2])

/-- `auto_detect_cell_units` from the glyph-dimension list on: fallback
`(57, 0.0)` when no dimensions, otherwise the scoring loop over candidates
`CELL_UNITS_MIN .. CELL_UNITS_MAX` started at `(57, 0.0)`. -/
def auto_detect_cell_units (dimensions : List (ℚ × ℚ)) : ℕ × ℚ :=
  if dimensions = [] then (57, 0)
  else
    detectLoop (allValues dimensions)
      (List.range' Config.CELL_UNITS_MIN (Config.CELL_UNITS_MAX + 1 - Config.CELL_UNITS_MIN))
      (57, 0)

/-- The normalized score `score / len(all_values)` the loop compares. -/
def normScore (values : List ℚ) (candidate : ℕ) : ℚ :=
  (score values candidate : ℚ) / (values.length : ℚ)

/-- Invariant of the candidate loop after the candidates below `a` have been
scanned: either no candidate so far scored and the state still holds the
initializer `(57, 0)`, or the state holds the smallest candidate of maximal
(positive) score together with its normalized score. -/
def DetectInv (values : List ℚ) (a : ℕ) (b : ℕ × ℚ) : Prop :=
  (b = (57, 0) ∧ ∀ j, 20 ≤ j → j < a → score values j = 0) ∨
    (20 ≤ b.1 ∧ b.1 < a ∧ 0 < score values b.1 ∧ b.2 = normScore values b.1 ∧
      (∀ j, 20 ≤ j → j < a → score values j ≤ score values b.1) ∧
      (∀ j, 20 ≤ j → j < a → score values j = score values b.1 → b.1 ≤ j))

end CellDetector

namespace Rasterizer

/-!
Embedding of `src/ttf2stitch/rasterizer.py`.

The resized grayscale image produced by `content.resize((target_w,
target_height), Image.LANCZOS)` in `_rasterize_average` is modelled as a
rectangular grid of intensities, `List (List ℕ)` in row order (so
`pixels[x, y]` is entry `x` of row `y`).  The resize itself is a
deterministic function of the cropped content that does not depend on
`bold`, `threshold` or the dilation radius, so the claims about what happens
after it are stated from the resized image on.
-/

/-- A grayscale pixel grid, rows top to bottom. -/
def Grid := List (List ℕ)

/-- Pixel access `pixels[x, y]` (grids are rectangular throughout; the
defaults are never consulted on rectangular input). -/
def pxAt (g : Grid) (x y : ℕ) : ℕ :=
  (List.getD g y []).getD x 0

/-- Width of the grid (`im.xsize`). -/
def gridWidth (g : Grid) : ℕ :=
  (List.headD g []).length

/-- Height of the grid (`im.ysize`). -/
def gridHeight (g : Grid) : ℕ :=
  List.length g

/-- `ImageFilter.SHARPEN` at one interior pixel: the built-in 3×3 kernel
`(-2, -2, -2, -2, 32, -2, -2, -2, -2)` with scale 16 and offset 0.  PIL sums
the float products (exactly the value `n / 16` below — every product is a
multiple of `1/8`, so the float arithmetic is exact) and `clip8` clamps to
`[0, 255]` and truncates; truncation of the positive value `n / 16` is the
floor division `n / 16`. -/
def sharpenAt (g : Grid) (x y : ℕ) : ℕ :=
  let n : ℤ := 32 * (pxAt g x y : ℤ)
    - 2 * ((pxAt g (x-1) (y-1) : ℤ) + (pxAt g x (y-1) : ℤ) + (pxAt g (x+1) (y-1) : ℤ)
      + (pxAt g (x-1) y : ℤ) + (pxAt g (x+1) y : ℤ)
      + (pxAt g (x-1) (y+1) : ℤ) + (pxAt g x (y+1) : ℤ) + (pxAt g (x+1) (y+1) : ℤ))
  if n ≤ 0 then 0
  else if 255 * 16 ≤ n then 255
  else (n / 16).toNat

/-- `scaled.filter(ImageFilter.SHARPEN)`: PIL's 3×3 filter leaves the
one-pixel border unfiltered (it copies the first and last row and the first
and last entry of every interior row). -/
def sharpen (g : Grid) : Grid :=
  let w := gridWidth g
  let h := gridHeight g
  (List.range h).map (fun y =>
    (List.range w).map (fun x =>
      if y = 0 || y = h - 1 || x = 0 || x = w - 1 then pxAt g x y
      else sharpenAt g x y))

/-- `img.histogram()` for mode "L": 256 bins counting the pixels of each
intensity. -/
def gridHistogram (g : Grid) : List ℕ :=
  (List.range 256).map (fun i =>
    (g.map (fun row => (row.filter (fun p => p = i)).length)).sum)

/-- The loop state of `_auto_threshold`:
`(stopped, weight_bg, sum_bg, max_variance, best_threshold)` (`stopped`
models the `break`). -/
def OtsuState := Bool × ℕ × ℚ × ℚ × ℕ

/-- One iteration of the Otsu threshold loop at bin `t`. -/
def otsuStep (hist : List ℕ) (total : ℕ) (sum_all : ℚ) (st : OtsuState) (t : ℕ) : OtsuState :=
  let stopped := st.1; let weight_bg := st.2.1; let sum_bg := st.2.2.1
  let max_variance := st.2.2.2.1; let best_threshold := st.2.2.2.2
  if stopped then st
  else
    let weight_bg' := weight_bg + hist.getD t 0
    if weight_bg' = 0 then (false, weight_bg', sum_bg, max_variance, best_threshold)
    else
      let weight_fg := total - weight_bg'
      if weight_fg = 0 then (true, weight_bg', sum_bg, max_variance, best_threshold)
      else
        let sum_bg' := sum_bg + (t : ℚ) * (hist.getD t 0 : ℚ)
        let mean_bg := sum_bg' / (weight_bg' : ℚ)
        let mean_fg := (sum_all - sum_bg') / (weight_fg : ℚ)
        let variance := (weight_bg' : ℚ) * (weight_fg : ℚ) * (mean_bg - mean_fg) ^ 2
        if max_variance < variance then (false, weight_bg', sum_bg', variance, t)
        else (false, weight_bg', sum_bg', max_variance, best_threshold)

/-- `_auto_threshold` (Otsu's method) from the 256-bin histogram on: returns
128 for an empty histogram, otherwise scans every bin keeping the threshold
of maximal between-class variance (`best_threshold` starts at 128). -/
def auto_threshold (hist : List ℕ) : ℕ :=
  let total := hist.sum
  if total = 0 then 128
  else
    let sum_all : ℚ := ((List.range 256).map (fun (i : ℕ) => (i : ℚ) * (hist.getD i 0 : ℚ))).sum
    ((List.range 256).foldl (otsuStep hist total sum_all) (false, 0, 0, 0, 128)).2.2.2.2

/-- `_dilate_bitmap`: each `'1'` cell fills its square Chebyshev
neighborhood of the given radius, clipped at the edges; empty bitmaps,
zero-width bitmaps and `radius ≤ 0` are identity. -/
def dilate_bitmap (bitmap : List (List Char)) (radius : ℕ) : List (List Char) :=
  if bitmap = [] ∨ radius = 0 then bitmap
  else
    let rows := bitmap.length
    let cols := (bitmap.headD []).length
    if cols = 0 then bitmap
    else
      (List.range rows).map (fun y =>
        (List.range cols).map (fun x =>
          if (List.range rows).any (fun ny =>
            (List.range cols).any (fun nx =>
              decide ((bitmap.getD ny []).getD nx '0' = '1')
                && decide (ny ≤ y + radius) && decide (y ≤ ny + radius)
                && decide (nx ≤ x + radius) && decide (x ≤ nx + radius)))
          then '1' else '0'))

/-- `_rasterize_average` from the resized image on: sharpen when `bold > 0`,
resolve the threshold (Otsu on the — possibly sharpened — resized image when
`None`), and emit `'1'` exactly for intensities below the threshold. -/
def rasterize_average (scaled : Grid) (threshold : Option ℕ) (bold : ℕ) : List (List Char) :=
  let scaled2 := if 0 < bold then sharpen scaled else scaled
  let t := match threshold with
    | some t => t
    | none => auto_threshold (gridHistogram scaled2)
  scaled2.map (fun row => row.map (fun p => if p < t then '1' else '0'))

/-- The "average"-strategy tail of `_render_char_bitmap`: binarize via
`_rasterize_average`, then dilate by `bold` when `bold > 0`. -/
def render_average (scaled : Grid) (threshold : Option ℕ) (bold : ℕ) : List (List Char) :=
  let bitmap := rasterize_average scaled threshold bold
  if 0 < bold then dilate_bitmap bitmap bold else bitmap

end Rasterizer

namespace ServerCache

/-!
Embedding of `server_cache.py` (`do_rasterize`).

The cache key is the tuple `(font_file, height, bold, strategy)`.  The disk
tier is keyed by the cache key as well, because `_disk_cache_path` is a
deterministic function of the key.  The rasterization itself (the body of
the full-miss branch) is abstracted as a partial function `compute` of the
key — the source computes it from the font file and the parameters only —
and the best-effort disk write by a flag `diskOk` (`_write_disk_cache`
silently skips on filesystem failure).
-/

/-- The rasterization request key `(font_file, height, bold, strategy)`. -/
def Key := String × ℤ × ℤ × String

instance : DecidableEq Key := by
  unfold Key
  infer_instance

/-- The mutable state visible to `do_rasterize`: the L1 in-memory mapping,
the L2 disk mapping and the in-flight set. -/
structure CacheState (J : Type) where
  l1 : Key → Option J
  disk : Key → Option J
  inflight : List Key

/-- `do_rasterize`: L1 hit, else L2 hit promoted to L1, else compute, store
in L1 and (best-effort) L2.  The returned flag records whether the
rasterization work ran; the in-flight key is inserted and popped within the
same call (`finally`), so the post-state carries the set unchanged. -/
def do_rasterize {J : Type} (compute : Key → Option J) (diskOk : Bool) (k : Key)
    (s : CacheState J) : Option J × CacheState J × Bool :=
  match s.l1 k with
  | some v => (some v, s, false)
  | none =>
    match s.disk k with
    | some v => (some v, { s with l1 := fun k2 => if k2 = k then some v else s.l1 k2 }, false)
    | none =>
      match compute k with
      | some v =>
        (some v,
         { s with
            l1 := fun k2 => if k2 = k then some v else s.l1 k2
            disk := if diskOk then (fun k2 => if k2 = k then some v else s.disk k2) else s.disk },
         true)
      | none => (none, s, true)

end ServerCache

/-! ## Theorems -/

namespace Sampler

/-- Every emitted cell character is `'0'` or `'1'`. -/
theorem sampleCell_alphabet (img : PImage) (cx cy cell_w cell_h half_sample fill_threshold : ℚ) :
    sampleCell img cx cy cell_w cell_h half_sample fill_threshold = '0' ∨
      sampleCell img cx cy cell_w cell_h half_sample fill_threshold = '1' := by
  simp only [sampleCell]
  split
  · exact Or.inl rfl
  · split
    · exact Or.inl rfl
    · split
      · exact Or.inr rfl
      · exact Or.inl rfl

end Sampler

/-- Claim C9: for every grayscale image, every bounding box (clipping included)
and all `num_rows ≥ 1`, `num_cols ≥ 1`, the cell sampler returns exactly
`num_rows` rows, each of length exactly `num_cols`, over the alphabet
`{'0','1'}`. -/
theorem C9_sample_bitmap_shape (img : Sampler.PImage) (bbox : ℤ × ℤ × ℤ × ℤ)
    (num_rows num_cols : ℕ) (sample_pct fill_threshold : ℚ)
    (_hr : 1 ≤ num_rows) (_hc : 1 ≤ num_cols) :
    (Sampler.sample_bitmap img bbox num_rows num_cols sample_pct fill_threshold).length
        = num_rows ∧
      ∀ row ∈ Sampler.sample_bitmap img bbox num_rows num_cols sample_pct fill_threshold,
        row.length = num_cols ∧ ∀ c ∈ row, c = '0' ∨ c = '1' := by
  constructor
  · unfold Sampler.sample_bitmap
    rw [List.length_map, List.length_range]
  · intro row hrow
    unfold Sampler.sample_bitmap at hrow
    rw [List.mem_map] at hrow
    obtain ⟨r, -, rfl⟩ := hrow
    refine ⟨by rw [List.length_map, List.length_range], ?_⟩
    intro c hcmem
    rw [List.mem_map] at hcmem
    obtain ⟨col, -, rfl⟩ := hcmem
    exact Sampler.sampleCell_alphabet img _ _ _ _ _ _

/-- Witness for C9 at a concrete 2×2 all-white image and a 1×1 grid. -/
theorem C9_sample_bitmap_shape_witness :
    (Sampler.sample_bitmap ⟨2, 2, fun _ _ => 255⟩ (0, 0, 2, 2) 1 1 (2/5) (3/20)).length = 1 ∧
      ∀ row ∈ Sampler.sample_bitmap ⟨2, 2, fun _ _ => 255⟩ (0, 0, 2, 2) 1 1 (2/5) (3/20),
        row.length = 1 ∧ ∀ c ∈ row, c = '0' ∨ c = '1' :=
  C9_sample_bitmap_shape ⟨2, 2, fun _ _ => 255⟩ (0, 0, 2, 2) 1 1 (2/5) (3/20)
    (by decide) (by decide)

/-- Claim C7: a cell emits `'1'` iff its clipped sampling rectangle is
non-degenerate and the dark-pixel ratio strictly exceeds `fill_threshold`
(dark means intensity `< 128`); a degenerate rectangle emits `'0'`, and a
cell whose ratio equals the threshold exactly emits `'0'`. -/
theorem C7_sample_cell_rule (img : Sampler.PImage)
    (cx cy cell_w cell_h half_sample fill_threshold : ℚ) (x1 y1 x2 y2 : ℤ)
    (h : Sampler.cellRect img cx cy cell_w cell_h half_sample = (x1, y1, x2, y2)) :
    (Sampler.sampleCell img cx cy cell_w cell_h half_sample fill_threshold = '1' ↔
        x1 < x2 ∧ y1 < y2 ∧
          fill_threshold <
            (Sampler.cellDark img x1 y1 x2 y2 : ℚ) / (Sampler.cellTotal x1 y1 x2 y2 : ℚ)) ∧
      (x2 ≤ x1 ∨ y2 ≤ y1 →
        Sampler.sampleCell img cx cy cell_w cell_h half_sample fill_threshold = '0') ∧
      ((Sampler.cellDark img x1 y1 x2 y2 : ℚ) / (Sampler.cellTotal x1 y1 x2 y2 : ℚ)
          = fill_threshold →
        Sampler.sampleCell img cx cy cell_w cell_h half_sample fill_threshold = '0') := by
  have he : Sampler.sampleCell img cx cy cell_w cell_h half_sample fill_threshold =
      if x2 ≤ x1 ∨ y2 ≤ y1 then '0'
      else if Sampler.cellTotal x1 y1 x2 y2 = 0 then '0'
      else if fill_threshold <
          (Sampler.cellDark img x1 y1 x2 y2 : ℚ) / (Sampler.cellTotal x1 y1 x2 y2 : ℚ)
        then '1' else '0' := by
    simp only [Sampler.sampleCell, h]
  rw [he]
  by_cases hdeg : x2 ≤ x1 ∨ y2 ≤ y1
  · rw [if_pos hdeg]
    refine ⟨⟨fun hch => absurd hch (by decide), ?_⟩, fun _ => rfl, fun _ => rfl⟩
    rintro ⟨hx, hy, -⟩
    exact absurd hdeg (by omega)
  · rw [if_neg hdeg]
    push_neg at hdeg
    obtain ⟨hx, hy⟩ := hdeg
    have htot : ¬ Sampler.cellTotal x1 y1 x2 y2 = 0 := by
      unfold Sampler.cellTotal
      have h1 : 0 < (x2 - x1).toNat := by omega
      have h2 : 0 < (y2 - y1).toNat := by omega
      positivity
    rw [if_neg htot]
    by_cases hgt : fill_threshold <
        (Sampler.cellDark img x1 y1 x2 y2 : ℚ) / (Sampler.cellTotal x1 y1 x2 y2 : ℚ)
    · rw [if_pos hgt]
      refine ⟨⟨fun _ => ⟨hx, hy, hgt⟩, fun _ => rfl⟩, ?_, ?_⟩
      · intro hc
        exact absurd hc (by omega)
      · intro heq
        rw [heq] at hgt
        exact absurd hgt (lt_irrefl _)
    · rw [if_neg hgt]
      refine ⟨⟨fun hch => absurd hch (by decide), ?_⟩, fun _ => rfl, fun _ => rfl⟩
      rintro ⟨-, -, hgt2⟩
      exact absurd hgt2 hgt

/-- Witness for C7 at a concrete quarter-dark region whose ratio equals the
threshold exactly: the cell resolves to `'0'`. -/
theorem C7_sample_cell_rule_witness :
    Sampler.sampleCell ⟨2, 2, fun x y => if x = 0 ∧ y = 0 then 0 else 255⟩
        1 1 2 2 (1/2) (1/4) = '0' := by
  have hrect : Sampler.cellRect ⟨2, 2, fun x y => if x = 0 ∧ y = 0 then 0 else 255⟩
      1 1 2 2 (1/2) = (0, 0, 2, 2) := by
    norm_num [Sampler.cellRect, Py.pyInt, Py.pyMax, Py.pyMin]
  have hdark : Sampler.cellDark ⟨2, 2, fun x y => if x = 0 ∧ y = 0 then 0 else 255⟩
      0 0 2 2 = 1 := by decide
  have htot : Sampler.cellTotal 0 0 2 2 = 4 := by decide
  have hratio : (Sampler.cellDark ⟨2, 2, fun x y => if x = 0 ∧ y = 0 then 0 else 255⟩
      0 0 2 2 : ℚ) / (Sampler.cellTotal 0 0 2 2 : ℚ) = 1/4 := by
    rw [hdark, htot]
    norm_num
  exact (C7_sample_cell_rule ⟨2, 2, fun x y => if x = 0 ∧ y = 0 then 0 else 255⟩
    1 1 2 2 (1/2) (1/4) 0 0 2 2 hrect).2.2 hratio

/-- Claim C1 (supporting evaluation): `trim_bitmap` — the function the
rasterizer intends to import — implements the C8 trim contract on the spec's
own S3 vector, and maps an all-zero bitmap to the empty bitmap (the
caller-skips-glyph case). -/
theorem C1_trim_bitmap_eval :
    Sampler.trim_bitmap
        [['0','0','0','0'], ['0','1','1','0'], ['0','1','0','0'], ['0','0','0','0']]
        = [['1','1'], ['1','0']] ∧
      Sampler.trim_bitmap [['0','0'], ['0','0']] = [] := by
  decide

/-- Claim C10: constructing a glyph record succeeds iff `width ≥ 1`, the
bitmap is non-empty and every row's length equals `width`; every glyph
record produced satisfies the row-width law. -/
theorem C10_glyph_validation (width : ℤ) (bitmap : List (List Char)) :
    ((∃ g, Schema.mkGlyphV2 width bitmap = .ok g) ↔
        1 ≤ width ∧ bitmap ≠ [] ∧ ∀ row ∈ bitmap, (row.length : ℤ) = width) ∧
      ∀ g, Schema.mkGlyphV2 width bitmap = .ok g →
        g.width = width ∧ g.bitmap = bitmap ∧ 1 ≤ g.width ∧ g.bitmap ≠ [] ∧
          ∀ row ∈ g.bitmap, (row.length : ℤ) = g.width := by
  unfold Schema.mkGlyphV2
  split
  · rename_i hw
    constructor
    · constructor
      · rintro ⟨g, hg⟩
        exact Except.noConfusion hg
      · intro h
        exact absurd h.1 (by omega)
    · intro g hg; exact Except.noConfusion hg
  · rename_i hw
    split
    · rename_i hb
      constructor
      · constructor
        · rintro ⟨g, hg⟩
          exact Except.noConfusion hg
        · intro h
          exact absurd hb h.2.1
      · intro g hg; exact Except.noConfusion hg
    · rename_i hb
      split
      · rename_i hall
        rw [List.all_eq_true] at hall
        constructor
        · constructor
          · intro _
            exact ⟨by omega, hb, fun row hrow => by simpa using hall row hrow⟩
          · intro _; exact ⟨_, rfl⟩
        · intro g hg
          simp only [Except.ok.injEq] at hg
          subst hg
          exact ⟨rfl, rfl, (by omega : 1 ≤ width), hb,
            fun row hrow => by simpa using hall row hrow⟩
      · rename_i hall
        rw [List.all_eq_true] at hall
        constructor
        · constructor
          · rintro ⟨g, hg⟩
            exact Except.noConfusion hg
          · intro h
            exact absurd (fun row hrow => decide_eq_true (h.2.2 row hrow)) hall
        · intro g hg; exact Except.noConfusion hg

/-- Witness for C10: a 1×2 glyph validates. -/
theorem C10_glyph_validation_witness :
    ∃ g, Schema.mkGlyphV2 2 [['0', '1']] = .ok g :=
  (C10_glyph_validation 2 [['0', '1']]).1.mpr
    ⟨by decide, by decide, by decide⟩

/-- A call whose key is already in L1 answers from L1, leaves the state
unchanged and performs no rasterization work. -/
theorem do_rasterize_l1_hit {J : Type} (compute : ServerCache.Key → Option J)
    (dk : Bool) (k : ServerCache.Key) (s : ServerCache.CacheState J) (v : J)
    (h : s.l1 k = some v) :
    ServerCache.do_rasterize compute dk k s = (some v, s, false) := by
  unfold ServerCache.do_rasterize
  rw [h]

/-- After a successful call, the L1 cache holds the returned value at the
request key. -/
theorem do_rasterize_l1_after {J : Type} (compute : ServerCache.Key → Option J)
    (dk : Bool) (k : ServerCache.Key) (s : ServerCache.CacheState J) (v : J)
    (h : (ServerCache.do_rasterize compute dk k s).1 = some v) :
    (ServerCache.do_rasterize compute dk k s).2.1.l1 k = some v := by
  unfold ServerCache.do_rasterize at h ⊢
  rcases h1 : s.l1 k with - | v1
  · rcases h2 : s.disk k with - | v2
    · rcases h3 : compute k with - | v3
      · simp only [h1, h2, h3] at h
        exact Option.noConfusion h
      · simp only [h1, h2, h3] at h ⊢
        simp only [Option.some.injEq] at h
        subst h
        simp
    · simp only [h1, h2] at h ⊢
      simp only [Option.some.injEq] at h
      subst h
      simp
  · simp only [h1] at h ⊢
    simp only [Option.some.injEq] at h
    subst h
    rfl

/-- Claim C8: after a successful invocation of the cached rasterization
service, a second invocation with the same request key returns the identical
JSON value, from the L1 cache, without running the rasterization work. -/
theorem C8_cache_hit_stability {J : Type} (compute : ServerCache.Key → Option J)
    (dk1 dk2 : Bool) (k : ServerCache.Key) (s : ServerCache.CacheState J) (v : J)
    (h : (ServerCache.do_rasterize compute dk1 k s).1 = some v) :
    ServerCache.do_rasterize compute dk2 k (ServerCache.do_rasterize compute dk1 k s).2.1
      = (some v, (ServerCache.do_rasterize compute dk1 k s).2.1, false) :=
  do_rasterize_l1_hit compute dk2 k _ v (do_rasterize_l1_after compute dk1 k s v h)

/-- Witness for C8: two calls at the key `("Roboto.ttf", 12, 1, "average")`
starting from the empty cache. -/
theorem C8_cache_hit_stability_witness :
    ServerCache.do_rasterize (fun _ => some 7) true ("Roboto.ttf", 12, 1, "average")
        (ServerCache.do_rasterize (fun _ => some 7) true ("Roboto.ttf", 12, 1, "average")
          ⟨fun _ => none, fun _ => none, []⟩).2.1
      = (some 7,
         (ServerCache.do_rasterize (fun _ => some 7) true ("Roboto.ttf", 12, 1, "average")
           ⟨fun _ => none, fun _ => none, []⟩).2.1,
         false) :=
  C8_cache_hit_stability (fun _ => some 7) true true ("Roboto.ttf", 12, 1, "average")
    ⟨fun _ => none, fun _ => none, []⟩ 7 rfl

/-- Claim C3 (amended): with the "average" strategy and `bold > 0`, the
output equals the `bold = 0` output computed on the SHARPEN-filtered resized
image, dilated by Chebyshev radius `bold` — i.e. besides the final dilation,
`bold` also applies the sharpening convolution before binarization (and the
Otsu threshold, when automatic, is computed on the sharpened image). -/
theorem C3_bold_sharpen_then_dilate (scaled : Rasterizer.Grid) (threshold : Option ℕ)
    (bold : ℕ) (hb : 0 < bold) :
    Rasterizer.render_average scaled threshold bold =
      Rasterizer.dilate_bitmap
        (Rasterizer.render_average (Rasterizer.sharpen scaled) threshold 0) bold := by
  simp only [Rasterizer.render_average, Rasterizer.rasterize_average, if_pos hb,
    if_neg (lt_irrefl 0)]

/-- Witness for C3 (amended) at a concrete 3×3 image, `threshold = 128`,
`bold = 1`. -/
theorem C3_bold_sharpen_then_dilate_witness :
    Rasterizer.render_average [[255, 255, 255], [255, 140, 255], [255, 255, 255]]
        (some 128) 1 =
      Rasterizer.dilate_bitmap
        (Rasterizer.render_average
          (Rasterizer.sharpen [[255, 255, 255], [255, 140, 255], [255, 255, 255]])
          (some 128) 0) 1 :=
  C3_bold_sharpen_then_dilate [[255, 255, 255], [255, 140, 255], [255, 255, 255]]
    (some 128) 1 (by decide)

/-- Counterexample to C3 as stated: on the 3×3 image with a light-gray
center (intensity 140) and fixed threshold 128, `bold = 1` yields the
all-ones bitmap (sharpening darkens the center to 25, below threshold,
before dilation), while the `bold = 0` bitmap is all zeros and stays all
zeros under dilation. -/
theorem C3_bold_counterexample :
    Rasterizer.render_average [[255, 255, 255], [255, 140, 255], [255, 255, 255]]
        (some 128) 1 ≠
      Rasterizer.dilate_bitmap
        (Rasterizer.render_average [[255, 255, 255], [255, 140, 255], [255, 255, 255]]
          (some 128) 0) 1 := by
  decide

namespace Rasterizer

/-- One Otsu step either keeps the best threshold or replaces it by the
current bin. -/
theorem otsuStep_best (hist : List ℕ) (total : ℕ) (sum_all : ℚ) (st : OtsuState) (t : ℕ) :
    (otsuStep hist total sum_all st t).2.2.2.2 = st.2.2.2.2 ∨
      (otsuStep hist total sum_all st t).2.2.2.2 = t := by
  simp only [otsuStep]
  repeat' split
  all_goals simp

/-- The Otsu fold keeps the best threshold within the scanned bins. -/
theorem otsu_fold_le (hist : List ℕ) (total : ℕ) (sum_all : ℚ) (l : List ℕ) :
    ∀ st : OtsuState, (∀ t ∈ l, t ≤ 255) → st.2.2.2.2 ≤ 255 →
      (l.foldl (otsuStep hist total sum_all) st).2.2.2.2 ≤ 255 := by
  induction l with
  | nil => intro st _ hst; exact hst
  | cons t ts ih =>
    intro st hl hst
    rw [List.foldl_cons]
    refine ih _ (fun x hx => hl x (List.mem_cons_of_mem _ hx)) ?_
    rcases otsuStep_best hist total sum_all st t with h | h
    · rw [h]; exact hst
    · rw [h]; exact hl t (List.mem_cons_self t ts)

/-- Bins whose histogram entry is zero leave an untouched running state
unchanged (the `continue` branch). -/
theorem otsu_fold_zero_prefix (hist : List ℕ) (total : ℕ) (sum_all : ℚ) (l : List ℕ)
    (hz : ∀ t ∈ l, hist.getD t 0 = 0) (sb mv : ℚ) (bt : ℕ) :
    l.foldl (otsuStep hist total sum_all) (false, 0, sb, mv, bt) = (false, 0, sb, mv, bt) := by
  induction l with
  | nil => rfl
  | cons t ts ih =>
    rw [List.foldl_cons]
    have h0 := hz t (List.mem_cons_self t ts)
    have hstep : otsuStep hist total sum_all (false, 0, sb, mv, bt) t
        = (false, 0, sb, mv, bt) := by
      simp only [otsuStep]
      rw [h0]
      simp
    rw [hstep]
    exact ih (fun x hx => hz x (List.mem_cons_of_mem _ hx))

/-- Once the scan has stopped (`break`), the remaining bins do nothing. -/
theorem otsu_fold_stopped (hist : List ℕ) (total : ℕ) (sum_all : ℚ) (l : List ℕ) :
    ∀ st : OtsuState, st.1 = true → l.foldl (otsuStep hist total sum_all) st = st := by
  induction l with
  | nil => intro st _; rfl
  | cons t ts ih =>
    intro st hst
    rw [List.foldl_cons]
    have hstep : otsuStep hist total sum_all st t = st := by
      simp [otsuStep, hst]
    rw [hstep]
    exact ih st hst

/-- A list whose entries are all zero except index `i` sums to its entry at
`i`. -/
theorem sum_eq_single_getD (l : List ℕ) :
    ∀ i : ℕ, i < l.length → (∀ j, j < l.length → j ≠ i → l.getD j 0 = 0) →
      l.sum = l.getD i 0 := by
  induction l with
  | nil => intro i hi _; exact absurd hi (by simp)
  | cons x xs ih =>
    intro i hi hz
    match i with
    | 0 =>
      have hxs : xs.sum = 0 := by
        rw [List.sum_eq_zero_iff]
        intro y hy
        obtain ⟨j, hj, rfl⟩ := List.mem_iff_getElem.mp hy
        have := hz (j + 1) (by simpa using hj) (by omega)
        rwa [List.getD_cons_succ, List.getD_eq_getElem] at this
      simp [List.sum_cons, hxs]
    | i' + 1 =>
      have hx : x = 0 := by
        have := hz 0 (by simp) (by omega)
        simpa using this
      have hxs : xs.sum = xs.getD i' 0 := by
        refine ih i' (by simpa using hi) ?_
        intro j hj hne
        have := hz (j + 1) (by simpa using hj) (by omega)
        rwa [List.getD_cons_succ] at this
      simp [List.sum_cons, hx, hxs, List.getD_cons_succ]

end Rasterizer

/-- Claim C6: the automatic (Otsu) threshold is always an integer in
`[0, 255]`, and for every 256-bin histogram whose entire mass lies in a
single bin it returns 128. -/
theorem C6_auto_threshold (hist : List ℕ) :
    Rasterizer.auto_threshold hist ≤ 255 ∧
      (hist.length = 256 →
        ∀ i, i < 256 → (∀ j, j < 256 → j ≠ i → hist.getD j 0 = 0) → hist.getD i 0 ≠ 0 →
          Rasterizer.auto_threshold hist = 128) := by
  constructor
  · simp only [Rasterizer.auto_threshold]
    split
    · omega
    · refine Rasterizer.otsu_fold_le hist hist.sum _ _ _ ?_ (by norm_num)
      intro t ht
      have := List.mem_range.mp ht
      omega
  · intro hlen i hi hz hne
    have htot : hist.sum = hist.getD i 0 := by
      refine Rasterizer.sum_eq_single_getD hist i (by omega) ?_
      intro j hj hji
      exact hz j (by omega) hji
    have htot_ne : ¬ hist.sum = 0 := by
      rw [htot]; exact hne
    simp only [Rasterizer.auto_threshold]
    rw [if_neg htot_ne]
    have hsplit : List.range 256 =
        List.range' 0 i ++ (i :: List.range' (i + 1) (255 - i)) := by
      rw [List.range_eq_range', ← List.range'_succ]
      have h2 : List.range' 0 i ++ List.range' (0 + 1 * i) (255 - i + 1)
          = List.range' 0 (255 - i + 1 + i) := List.range'_append 0 i (255 - i + 1) 1
      simp only [Nat.zero_add, Nat.one_mul] at h2
      rw [h2]
      congr 1
      omega
    set sum_all : ℚ := ((List.range 256).map (fun (i : ℕ) => (i : ℚ) * (hist.getD i 0 : ℚ))).sum with hsa
    rw [hsplit, List.foldl_append]
    have hpre : (List.range' 0 i).foldl (Rasterizer.otsuStep hist hist.sum sum_all)
        (false, 0, 0, 0, 128) = (false, 0, 0, 0, 128) := by
      refine Rasterizer.otsu_fold_zero_prefix hist hist.sum sum_all _ ?_ 0 0 128
      intro t ht
      have hmem := List.mem_range'_1.mp ht
      exact hz t (by omega) (by omega)
    rw [hpre, List.foldl_cons]
    have hstep : Rasterizer.otsuStep hist hist.sum sum_all (false, 0, 0, 0, 128) i
        = (true, hist.getD i 0, 0, 0, 128) := by
      simp only [Rasterizer.otsuStep]
      simp only [Bool.false_eq_true, if_false, Nat.zero_add]
      rw [if_neg hne]
      rw [htot, Nat.sub_self]
      simp
    rw [hstep]
    rw [Rasterizer.otsu_fold_stopped hist hist.sum sum_all _ _ rfl]

set_option maxRecDepth 4000 in
/-- Witness for C6 at the spec's S1 histogram: all mass at bin 100. -/
theorem C6_auto_threshold_witness :
    Rasterizer.auto_threshold ((List.replicate 256 0).set 100 5) = 128 ∧
      Rasterizer.auto_threshold ((List.replicate 256 0).set 100 5) ≤ 255 :=
  ⟨(C6_auto_threshold ((List.replicate 256 0).set 100 5)).2 (by decide) 100 (by decide)
      (by decide) (by decide),
    (C6_auto_threshold ((List.replicate 256 0).set 100 5)).1⟩

namespace Filters

/-- Membership through the stable insertion. -/
theorem mem_insertByCp (p x : ℕ × Char) (l : List (ℕ × Char)) :
    x ∈ insertByCp p l ↔ x = p ∨ x ∈ l := by
  induction l with
  | nil => simp [insertByCp]
  | cons q qs ih =>
    simp only [insertByCp]
    split
    · simp [or_comm, or_assoc, or_left_comm]
    · simp only [List.mem_cons, ih]
      tauto

/-- Sorting by codepoint preserves membership. -/
theorem mem_sortByCp (x : ℕ × Char) (l : List (ℕ × Char)) :
    x ∈ sortByCp l ↔ x ∈ l := by
  induction l with
  | nil => simp [sortByCp]
  | cons q qs ih =>
    simp only [sortByCp, mem_insertByCp, ih, List.mem_cons]

/-- A kept entry is the pair `(codepoint, chr(codepoint))`. -/
theorem keepEntry_shape (allowed exclude : List Char) (cp : ℕ) (p : ℕ × Char)
    (h : keepEntry allowed exclude cp = some p) : p = (cp, Char.ofNat cp) := by
  simp only [keepEntry] at h
  repeat' split at h
  all_goals simp_all

/-- Keeping an entry under an exclusion set is keeping it under the empty
exclusion minus the excluded characters. -/
theorem keepEntry_exclude (allowed exclude : List Char) (cp : ℕ) (p : ℕ × Char) :
    keepEntry allowed exclude cp = some p ↔
      (keepEntry allowed [] cp = some p ∧ exclude.contains p.2 = false) := by
  constructor
  · intro h
    have hp := keepEntry_shape allowed exclude cp p h
    simp only [keepEntry] at h ⊢
    split at h
    · exact absurd h (by simp)
    · rename_i hE
      refine ⟨by simpa using h, ?_⟩
      rw [hp]
      simpa using hE
  · rintro ⟨h, hE⟩
    have hp := keepEntry_shape allowed [] cp p h
    simp only [keepEntry] at h ⊢
    rw [hp] at hE
    simp only [hE]
    simpa using h

/-- Claim C2 (amended): when the caller supplies no `exclude_chars`, the
effective exclusion set is `DEFAULT_EXCLUDE_CHARS = {'|', '~', '_'}` — not
empty — and the rasterized characters are exactly those of an
empty-exclusion run minus those three characters. -/
theorem C2_default_exclusion (cmap : List (ℕ × String)) (charset : String)
    (l₁ l₂ : List (ℕ × Char))
    (h₁ : filter_glyphs cmap charset (effectiveExclude none) = .ok l₁)
    (h₂ : filter_glyphs cmap charset [] = .ok l₂) :
    effectiveExclude none = Config.DEFAULT_EXCLUDE_CHARS ∧
      ∀ p, p ∈ l₁ ↔ (p ∈ l₂ ∧ Config.DEFAULT_EXCLUDE_CHARS.contains p.2 = false) := by
  refine ⟨rfl, ?_⟩
  intro p
  simp only [filter_glyphs] at h₁ h₂
  rcases hcs : get_charset charset with e | allowed
  · rw [hcs] at h₁
    exact absurd h₁ (by simp [Except.map])
  · rw [hcs] at h₁ h₂
    simp only [Except.map, Except.ok.injEq] at h₁ h₂
    subst h₁
    subst h₂
    rw [mem_sortByCp, mem_sortByCp, List.mem_filterMap, List.mem_filterMap]
    constructor
    · rintro ⟨e, he, hk⟩
      rw [keepEntry_exclude] at hk
      exact ⟨⟨e, he, hk.1⟩, hk.2⟩
    · rintro ⟨⟨e, he, hk⟩, hE⟩
      refine ⟨e, he, ?_⟩
      rw [keepEntry_exclude]
      exact ⟨hk, hE⟩

/-- Witness for C2 (amended) at a concrete two-entry cmap and the extended
charset. -/
theorem C2_default_exclusion_witness :
    effectiveExclude none = Config.DEFAULT_EXCLUDE_CHARS ∧
      ∀ p, p ∈ [((65:ℕ), 'A')] ↔
        (p ∈ [((65:ℕ), 'A'), (126, '~')] ∧
          Config.DEFAULT_EXCLUDE_CHARS.contains p.2 = false) :=
  C2_default_exclusion [(126, "asciitilde"), (65, "A")] "extended"
    [(65, 'A')] [(65, 'A'), (126, '~')] rfl rfl

/-- Counterexample to C2 as stated: the default exclusion set is not empty,
and a font whose cmap contains `'~'` (codepoint 126, a member of the
extended charset) has it dropped under the default, while an explicit empty
exclusion keeps it. -/
theorem C2_default_exclusion_counterexample :
    effectiveExclude none ≠ [] ∧
      filter_glyphs [(126, "asciitilde")] "extended" (effectiveExclude none) = .ok [] ∧
      filter_glyphs [(126, "asciitilde")] "extended" [] = .ok [(126, '~')] := by
  refine ⟨by decide, ?_, ?_⟩ <;> rfl

end Filters

namespace Utils

/-- `dropWhile` only stops at a character failing the predicate. -/
theorem dropWhile_head_false (p : Char → Bool) :
    ∀ (l : List Char) (c : Char) (rest : List Char),
      l.dropWhile p = c :: rest → p c = false := by
  intro l
  induction l with
  | nil => intro c rest h; exact absurd h (by simp)
  | cons a as ih =>
    intro c rest h
    rw [List.dropWhile_cons] at h
    split at h
    · exact ih c rest h
    · rename_i hpa
      injection h with h1 h2
      subst h1
      simpa using hpa

/-- `noDouble` restricted to the tail. -/
theorem noDouble_tail {c : Char} {l : List Char} (h : noDouble (c :: l) = true) :
    noDouble l = true := by
  cases l with
  | nil => rfl
  | cons b bs =>
    simp only [noDouble, Bool.and_eq_true] at h
    exact h.2

/-- Prepending a non-hyphen preserves `noDouble`. -/
theorem noDouble_cons_of_ne {c : Char} {l : List Char} (hc : ¬ c = '-')
    (h : noDouble l = true) : noDouble (c :: l) = true := by
  cases l with
  | nil => rfl
  | cons b bs =>
    simp only [noDouble, Bool.and_eq_true]
    exact ⟨by simp [hc], h⟩

/-- Prepending a hyphen to a list not starting with one preserves
`noDouble`. -/
theorem noDouble_cons_of_head {l : List Char} (hh : l.head? ≠ some '-')
    (h : noDouble l = true) : noDouble ('-' :: l) = true := by
  cases l with
  | nil => rfl
  | cons b bs =>
    have hb : ¬ b = '-' := by
      intro hcon
      subst hcon
      exact hh rfl
    simp only [noDouble, Bool.and_eq_true]
    exact ⟨by simp [hb], h⟩

/-- `noDouble` holds on any suffix. -/
theorem noDouble_of_append {t l : List Char} (h : noDouble (t ++ l) = true) :
    noDouble l = true := by
  induction t with
  | nil => exact h
  | cons a t ih => exact ih (noDouble_tail h)

/-- `noDouble` as an adjacency chain. -/
theorem noDouble_iff_chain (l : List Char) :
    noDouble l = true ↔ l.Chain' (fun a b => ¬(a = '-' ∧ b = '-')) := by
  induction l with
  | nil => simp [noDouble]
  | cons a l ih =>
    cases l with
    | nil => simp [noDouble]
    | cons b bs =>
      rw [List.chain'_cons, ← ih]
      simp only [noDouble, Bool.and_eq_true, Bool.not_eq_true']
      constructor
      · rintro ⟨h1, h2⟩
        refine ⟨?_, h2⟩
        intro hcon
        rw [hcon.1, hcon.2] at h1
        simp at h1
      · rintro ⟨h1, h2⟩
        refine ⟨?_, h2⟩
        by_cases ha : a = '-' <;> by_cases hb : b = '-' <;> simp [ha, hb]
        exact h1 ⟨ha, hb⟩

/-- `noDouble` is preserved by reversal. -/
theorem noDouble_reverse {l : List Char} (h : noDouble l = true) :
    noDouble l.reverse = true := by
  rw [noDouble_iff_chain] at h ⊢
  rw [List.chain'_reverse]
  exact h.imp (fun a b hab hcon => hab ⟨hcon.2, hcon.1⟩)

/-- Characters of the collapsed list come from the input or are hyphens. -/
theorem mem_collapseGo {c : Char} :
    ∀ (l : List Char) (b : Bool), c ∈ collapseGo b l → c = '-' ∨ c ∈ l := by
  intro l
  induction l with
  | nil => intro b h; simp [collapseGo] at h
  | cons d ds ih =>
    intro b h
    rw [collapseGo] at h
    split at h
    · rename_i hd
      subst hd
      split at h
      · rcases ih true h with h1 | h1
        · exact Or.inl h1
        · exact Or.inr (List.mem_cons_of_mem _ h1)
      · rcases List.mem_cons.mp h with h1 | h1
        · exact Or.inl h1
        · rcases ih true h1 with h2 | h2
          · exact Or.inl h2
          · exact Or.inr (List.mem_cons_of_mem _ h2)
    · rcases List.mem_cons.mp h with h1 | h1
      · exact Or.inr (h1 ▸ List.mem_cons_self d ds)
      · rcases ih false h1 with h2 | h2
        · exact Or.inl h2
        · exact Or.inr (List.mem_cons_of_mem _ h2)

/-- The collapsed list has no repeated hyphens, and in the in-run state it
cannot start with a hyphen. -/
theorem noDouble_collapseGo :
    ∀ (l : List Char), (∀ b, noDouble (collapseGo b l) = true) ∧
      (collapseGo true l).head? ≠ some '-' := by
  intro l
  induction l with
  | nil => exact ⟨fun b => rfl, by simp [collapseGo]⟩
  | cons d ds ih =>
    by_cases hd : d = '-'
    · subst hd
      constructor
      · intro b
        rw [collapseGo]
        simp only [if_pos rfl]
        cases b with
        | true => exact ih.1 true
        | false => exact noDouble_cons_of_head ih.2 (ih.1 true)
      · rw [collapseGo]
        simp only [if_pos rfl]
        exact ih.2
    · constructor
      · intro b
        rw [collapseGo]
        simp only [if_neg hd]
        exact noDouble_cons_of_ne hd (ih.1 false)
      · rw [collapseGo]
        simp only [if_neg hd]
        simpa using hd

/-- Characters survive `stripHyphens`. -/
theorem mem_stripHyphens {c : Char} {l : List Char} (h : c ∈ stripHyphens l) : c ∈ l := by
  unfold stripHyphens at h
  rw [List.mem_reverse] at h
  have h2 := (List.dropWhile_suffix (fun c => decide (c = '-'))).sublist.subset h
  rw [List.mem_reverse] at h2
  exact (List.dropWhile_suffix (fun c => decide (c = '-'))).sublist.subset h2

/-- `stripHyphens` preserves `noDouble`. -/
theorem noDouble_stripHyphens {l : List Char} (h : noDouble l = true) :
    noDouble (stripHyphens l) = true := by
  unfold stripHyphens
  apply noDouble_reverse
  obtain ⟨t1, ht1⟩ := List.dropWhile_suffix (l := l) (fun c => decide (c = '-'))
  have hA : noDouble (l.dropWhile (fun c => decide (c = '-'))) = true :=
    noDouble_of_append (ht1.symm ▸ h)
  have hAr : noDouble (l.dropWhile (fun c => decide (c = '-'))).reverse = true :=
    noDouble_reverse hA
  obtain ⟨t2, ht2⟩ := List.dropWhile_suffix
    (l := (l.dropWhile (fun c => decide (c = '-'))).reverse) (fun c => decide (c = '-'))
  exact noDouble_of_append (ht2.symm ▸ hAr)

/-- `stripHyphens` output does not start with a hyphen. -/
theorem head_stripHyphens (l : List Char) : (stripHyphens l).head? ≠ some '-' := by
  unfold stripHyphens
  rw [List.head?_reverse]
  cases hB : (l.dropWhile (fun c => decide (c = '-'))).reverse.dropWhile
      (fun c => decide (c = '-')) with
  | nil => simp
  | cons b bs =>
    obtain ⟨t2, ht2⟩ := List.dropWhile_suffix
      (l := (l.dropWhile (fun c => decide (c = '-'))).reverse) (fun c => decide (c = '-'))
    rw [hB] at ht2
    rw [← List.getLast?_append_cons t2 b bs, ht2, List.getLast?_reverse]
    cases hA : l.dropWhile (fun c => decide (c = '-')) with
    | nil =>
      rw [hA] at ht2
      simp at ht2
    | cons a as =>
      have ha : ¬ a = '-' := by
        simpa using dropWhile_head_false _ l a as hA
      simp [ha]

/-- `stripHyphens` output does not end with a hyphen. -/
theorem getLast_stripHyphens (l : List Char) : (stripHyphens l).getLast? ≠ some '-' := by
  unfold stripHyphens
  rw [List.getLast?_reverse]
  cases hB : (l.dropWhile (fun c => decide (c = '-'))).reverse.dropWhile
      (fun c => decide (c = '-')) with
  | nil => simp
  | cons b bs =>
    have hb : ¬ b = '-' := by
      simpa using dropWhile_head_false _ _ b bs hB
    simp [hb]

end Utils

namespace Utils

/-- A non-empty list over `[a-z0-9-]` with no leading, trailing or repeated
hyphen is accepted by the kebab-case automaton. -/
theorem kebabRun_of_struct :
    ∀ (l : List Char), (∀ c ∈ l, isSlugChar c = true) → noDouble l = true →
      l.getLast? ≠ some '-' →
      kebabRun false l = true ∧ (l.head? ≠ some '-' → l = [] ∨ kebabRun true l = true) := by
  intro l
  induction l with
  | nil => exact fun _ _ _ => ⟨rfl, fun _ => Or.inl rfl⟩
  | cons c cs ih =>
    intro hall hnd hlast
    have hcs_all : ∀ d ∈ cs, isSlugChar d = true :=
      fun d hd => hall d (List.mem_cons_of_mem _ hd)
    have hlast' : cs.getLast? ≠ some '-' := by
      cases cs with
      | nil => simp
      | cons d ds =>
        rw [List.getLast?_cons_cons] at hlast
        exact hlast
    by_cases hc : isAlnumLower c = true
    · have h1 := ih hcs_all (noDouble_tail hnd) hlast'
      constructor
      · rw [kebabRun]
        simp only [hc, if_pos]
        exact h1.1
      · intro _
        right
        rw [kebabRun]
        simp only [hc, if_pos]
        exact h1.1
    · have hc' : c = '-' := by
        have hm := hall c (List.mem_cons_self c cs)
        simp only [isSlugChar, Bool.or_eq_true, hc, Bool.false_eq_true, false_or, decide_eq_true_eq] at hm
        exact hm
      subst hc'
      have hcs_ne : cs ≠ [] := by
        intro hnil
        subst hnil
        simp at hlast
      have hhead : cs.head? ≠ some '-' := by
        cases cs with
        | nil => simp
        | cons d ds =>
          simp only [List.head?_cons, ne_eq, Option.some.injEq]
          intro hcon
          subst hcon
          simp [noDouble] at hnd
      have h1 := ih hcs_all (noDouble_tail hnd) hlast'
      rcases h1.2 hhead with hnil | hrun
      · exact absurd hnil hcs_ne
      · constructor
        · rw [kebabRun]
          rw [if_neg (by simpa using hc)]
          simpa using hrun
        · intro hh
          exact absurd rfl hh

end Utils

/-- Claim C4 (amended): when no `font_id` override is supplied, the record
id is `generate_slug(display name)`, and that slug matches
`^[a-z0-9]+(-[a-z0-9]+)*$` unless it is empty (it is empty when the display
name contributes no `[a-z0-9]` characters; a caller-supplied non-empty
`font_id` is used verbatim, without validation). -/
theorem C4_generate_slug_kebab (name : List Char) :
    Utils.resolveSlug none name = Utils.generate_slug name ∧
      (Utils.generate_slug name = [] ∨
        Utils.matchesKebab (Utils.generate_slug name) = true) := by
  refine ⟨rfl, ?_⟩
  have hgs : Utils.generate_slug name =
      Utils.stripHyphens (Utils.collapseHyphens
        ((Utils.subWs (name.map Char.toLower)).filter Utils.isSlugChar)) := rfl
  set m := (Utils.subWs (name.map Char.toLower)).filter Utils.isSlugChar with hm
  have hall_m : ∀ c ∈ m, Utils.isSlugChar c = true :=
    fun c hc => (List.mem_filter.mp hc).2
  have hall_col : ∀ c ∈ Utils.collapseHyphens m, Utils.isSlugChar c = true := by
    intro c hc
    rcases Utils.mem_collapseGo m false hc with h | h
    · rw [h]; rfl
    · exact hall_m c h
  have hnd_col : Utils.noDouble (Utils.collapseHyphens m) = true :=
    (Utils.noDouble_collapseGo m).1 false
  have hall_strip : ∀ c ∈ Utils.stripHyphens (Utils.collapseHyphens m),
      Utils.isSlugChar c = true :=
    fun c hc => hall_col c (Utils.mem_stripHyphens hc)
  have hnd_strip := Utils.noDouble_stripHyphens hnd_col
  have hlast := Utils.getLast_stripHyphens (Utils.collapseHyphens m)
  have hhead := Utils.head_stripHyphens (Utils.collapseHyphens m)
  have hk := Utils.kebabRun_of_struct _ hall_strip hnd_strip hlast
  rcases hk.2 hhead with hnil | hrun
  · left
    rw [hgs, hnil]
  · right
    rw [hgs]
    exact hrun

/-- Counterexample to C4 as stated: a caller-supplied `font_id` override is
used verbatim even when it is not kebab-case, and a display name with no
alphanumeric content yields the empty id, which the pattern rejects. -/
theorem C4_slug_counterexample :
    Utils.resolveSlug (some ("Bad_Id!".toList)) ("Whatever Font".toList) = "Bad_Id!".toList ∧
      Utils.matchesKebab ("Bad_Id!".toList) = false ∧
      Utils.resolveSlug none ("!!!".toList) = [] ∧
      Utils.matchesKebab [] = false := by
  refine ⟨rfl, by decide, rfl, rfl⟩

namespace CellDetector

/-- Normalized scores compare exactly as raw scores (the value count is
positive). -/
theorem normScore_lt_iff (values : List ℚ) (hv : values ≠ []) (j k : ℕ) :
    normScore values j < normScore values k ↔ score values j < score values k := by
  have hn : (0:ℚ) < (values.length : ℚ) := by
    have := List.length_pos.mpr hv
    exact_mod_cast this
  unfold normScore
  rw [div_lt_div_iff_of_pos_right hn]
  exact_mod_cast Iff.rfl

/-- A positive normalized score means a positive raw score, and conversely. -/
theorem normScore_pos_iff (values : List ℚ) (hv : values ≠ []) (j : ℕ) :
    0 < normScore values j ↔ 0 < score values j := by
  have h := normScore_lt_iff values hv j j
  have hz : normScore values j - normScore values j = 0 := by ring
  constructor
  · intro hp
    by_contra hnp
    have h0 : score values j = 0 := by omega
    rw [normScore, h0] at hp
    simp at hp
  · intro hp
    rw [normScore]
    apply div_pos
    · exact_mod_cast hp
    · have := List.length_pos.mpr hv
      exact_mod_cast this

/-- One loop step preserves the invariant. -/
theorem detectInv_step (values : List ℚ) (hv : values ≠ []) (a : ℕ) (b : ℕ × ℚ)
    (ha : 20 ≤ a) (h : DetectInv values a b) :
    DetectInv values (a + 1)
      (if b.2 < normScore values a then (a, normScore values a) else b) := by
  rcases h with ⟨hb, hz⟩ | ⟨h1, h2, h3, h4, h5, h6⟩
  · subst hb
    by_cases hlt : ((57 : ℕ), (0 : ℚ)).2 < normScore values a
    · rw [if_pos hlt]
      right
      dsimp only
      have hpos : 0 < score values a := by
        rw [← normScore_pos_iff values hv]
        simpa using hlt
      refine ⟨ha, by omega, hpos, rfl, ?_, ?_⟩
      · intro j hj1 hj2
        rcases Nat.lt_or_ge j a with hja | hja
        · rw [hz j hj1 hja]; omega
        · have hje : j = a := by omega
          rw [hje]
      · intro j hj1 hj2 hs
        rcases Nat.lt_or_ge j a with hja | hja
        · rw [hz j hj1 hja] at hs; omega
        · omega
    · rw [if_neg hlt]
      left
      refine ⟨rfl, ?_⟩
      intro j hj1 hj2
      rcases Nat.lt_or_ge j a with hja | hja
      · exact hz j hj1 hja
      · have hje : j = a := by omega
        subst hje
        by_contra hs
        have hpos : 0 < score values j := Nat.pos_of_ne_zero hs
        exact hlt (by simpa using (normScore_pos_iff values hv j).mpr hpos)
  · by_cases hlt : b.2 < normScore values a
    · rw [if_pos hlt]
      right
      dsimp only
      have hsa : score values b.1 < score values a := by
        rw [h4] at hlt
        exact (normScore_lt_iff values hv _ _).mp hlt
      refine ⟨ha, by omega, by omega, rfl, ?_, ?_⟩
      · intro j hj1 hj2
        rcases Nat.lt_or_ge j a with hja | hja
        · have := h5 j hj1 hja; omega
        · have hje : j = a := by omega
          rw [hje]
      · intro j hj1 hj2 hs
        rcases Nat.lt_or_ge j a with hja | hja
        · have := h5 j hj1 hja; omega
        · omega
    · rw [if_neg hlt]
      right
      have hsa : score values a ≤ score values b.1 := by
        by_contra hcon
        rw [h4] at hlt
        exact hlt ((normScore_lt_iff values hv _ _).mpr (by omega))
      refine ⟨h1, by omega, h3, h4, ?_, ?_⟩
      · intro j hj1 hj2
        rcases Nat.lt_or_ge j a with hja | hja
        · exact h5 j hj1 hja
        · have hje : j = a := by omega
          rw [hje]; exact hsa
      · intro j hj1 hj2 hs
        rcases Nat.lt_or_ge j a with hja | hja
        · exact h6 j hj1 hja hs
        · omega

/-- The candidate loop preserves the invariant over any ascending candidate
range. -/
theorem detectInv_loop (values : List ℚ) (hv : values ≠ []) :
    ∀ (n a : ℕ) (b : ℕ × ℚ), 20 ≤ a → DetectInv values a b →
      DetectInv values (a + n) (detectLoop values (List.range' a n) b) := by
  intro n
  induction n with
  | zero => intro a b _ h; exact h
  | succ n ih =>
    intro a b ha h
    rw [List.range'_succ, detectLoop]
    have h2 := detectInv_step values hv a b ha h
    have h3 := ih (a + 1) _ (by omega) h2
    have hac : a + (n + 1) = (a + 1) + n := by omega
    rw [hac]
    exact h3

end CellDetector

/-- Claim C5 (amended): with no override and no family match, on a font
with at least one measurable uppercase glyph, the detector returns the
smallest candidate in `[20, 120]` achieving the maximal score together with
`confidence = score / |values|` — provided some candidate scores at all; when
every candidate scores 0 it returns the fallback `(57, 0.0)` rather than the
smallest candidate. -/
theorem C5_auto_detect_argmax (dims : List (ℚ × ℚ)) (h : dims ≠ []) :
    (CellDetector.auto_detect_cell_units dims = (57, 0) ∧
        ∀ j, 20 ≤ j → j ≤ 120 → CellDetector.score (CellDetector.allValues dims) j = 0) ∨
      (20 ≤ (CellDetector.auto_detect_cell_units dims).1 ∧
        (CellDetector.auto_detect_cell_units dims).1 ≤ 120 ∧
        0 < CellDetector.score (CellDetector.allValues dims)
          (CellDetector.auto_detect_cell_units dims).1 ∧
        (CellDetector.auto_detect_cell_units dims).2
          = CellDetector.normScore (CellDetector.allValues dims)
              (CellDetector.auto_detect_cell_units dims).1 ∧
        (∀ j, 20 ≤ j → j ≤ 120 →
          CellDetector.score (CellDetector.allValues dims) j ≤
            CellDetector.score (CellDetector.allValues dims)
              (CellDetector.auto_detect_cell_units dims).1) ∧
        (∀ j, 20 ≤ j → j ≤ 120 →
          CellDetector.score (CellDetector.allValues dims) j =
            CellDetector.score (CellDetector.allValues dims)
              (CellDetector.auto_detect_cell_units dims).1 →
          (CellDetector.auto_detect_cell_units dims).1 ≤ j)) := by
  have hv : CellDetector.allValues dims ≠ [] := by
    cases dims with
    | nil => exact absurd rfl h
    | cons d ds => simp [CellDetector.allValues]
  have hrange : List.range' Config.CELL_UNITS_MIN
      (Config.CELL_UNITS_MAX + 1 - Config.CELL_UNITS_MIN) = List.range' 20 101 := rfl
  have hres : CellDetector.auto_detect_cell_units dims
      = CellDetector.detectLoop (CellDetector.allValues dims) (List.range' 20 101) (57, 0) := by
    unfold CellDetector.auto_detect_cell_units
    rw [if_neg h, hrange]
  have hinit : CellDetector.DetectInv (CellDetector.allValues dims) 20 (57, 0) :=
    Or.inl ⟨rfl, fun j hj1 hj2 => by omega⟩
  have hfin := CellDetector.detectInv_loop (CellDetector.allValues dims) hv 101 20 (57, 0)
    (by omega) hinit
  rw [← hres] at hfin
  rcases hfin with ⟨hb, hz⟩ | ⟨h1, h2, h3, h4, h5, h6⟩
  · exact Or.inl ⟨hb, fun j hj1 hj2 => hz j hj1 (by omega)⟩
  · exact Or.inr ⟨h1, by omega, h3, h4,
      fun j hj1 hj2 => h5 j hj1 (by omega),
      fun j hj1 hj2 hs => h6 j hj1 (by omega) hs⟩

/-- Witness for C5 (amended) at the one-glyph dimension list `[(8, 8)]`. -/
theorem C5_auto_detect_argmax_witness :
    (CellDetector.auto_detect_cell_units [((8:ℚ), 8)] = (57, 0) ∧
        ∀ j, 20 ≤ j → j ≤ 120 →
          CellDetector.score (CellDetector.allValues [((8:ℚ), 8)]) j = 0) ∨
      (20 ≤ (CellDetector.auto_detect_cell_units [((8:ℚ), 8)]).1 ∧
        (CellDetector.auto_detect_cell_units [((8:ℚ), 8)]).1 ≤ 120 ∧
        0 < CellDetector.score (CellDetector.allValues [((8:ℚ), 8)])
          (CellDetector.auto_detect_cell_units [((8:ℚ), 8)]).1 ∧
        (CellDetector.auto_detect_cell_units [((8:ℚ), 8)]).2
          = CellDetector.normScore (CellDetector.allValues [((8:ℚ), 8)])
              (CellDetector.auto_detect_cell_units [((8:ℚ), 8)]).1 ∧
        (∀ j, 20 ≤ j → j ≤ 120 →
          CellDetector.score (CellDetector.allValues [((8:ℚ), 8)]) j ≤
            CellDetector.score (CellDetector.allValues [((8:ℚ), 8)])
              (CellDetector.auto_detect_cell_units [((8:ℚ), 8)]).1) ∧
        (∀ j, 20 ≤ j → j ≤ 120 →
          CellDetector.score (CellDetector.allValues [((8:ℚ), 8)]) j =
            CellDetector.score (CellDetector.allValues [((8:ℚ), 8)])
              (CellDetector.auto_detect_cell_units [((8:ℚ), 8)]).1 →
          (CellDetector.auto_detect_cell_units [((8:ℚ), 8)]).1 ≤ j)) :=
  C5_auto_detect_argmax [((8:ℚ), 8)] (by simp)

namespace CellDetector

/-- The value 8 never scores: for every candidate `k ≥ 20` the ratio `8/k`
is at most `2/5`, so it rounds to 0 and fails the `rounded > 0` test. -/
theorem hitsCandidate_eight (k : ℕ) (hk : 20 ≤ k) : hitsCandidate 8 k = false := by
  have hk0 : (0:ℚ) < (k : ℚ) := by
    have : 0 < k := by omega
    exact_mod_cast this
  have hk20 : (20:ℚ) ≤ (k : ℚ) := by exact_mod_cast hk
  have hle : (8:ℚ) / (k : ℚ) ≤ 2/5 := by
    rw [div_le_iff₀ hk0]
    nlinarith
  have hnn : (0:ℚ) ≤ 8 / (k : ℚ) := by positivity
  have hfloor : ⌊(8:ℚ) / (k : ℚ)⌋ = 0 := by
    rw [Int.floor_eq_zero_iff]
    constructor
    · exact hnn
    · have : (2:ℚ)/5 < 1 := by norm_num
      exact lt_of_le_of_lt hle this
  have hround : Py.pyRound ((8:ℚ) / (k : ℚ)) = 0 := by
    simp only [Py.pyRound, hfloor]
    rw [if_pos]
    push_cast
    rw [sub_zero]
    exact lt_of_le_of_lt hle (by norm_num)
  simp only [hitsCandidate, hround]
  simp

/-- A run in which every candidate keeps score zero returns the initial
state `(57, 0)` unchanged. -/
theorem detectLoop_all_zero (values : List ℚ) :
    ∀ (l : List ℕ), (∀ k ∈ l, score values k = 0) →
      detectLoop values l (57, 0) = (57, 0) := by
  intro l
  induction l with
  | nil => intro _; rfl
  | cons k ks ih =>
    intro hz
    rw [detectLoop]
    have h0 : score values k = 0 := hz k (List.mem_cons_self k ks)
    have hno : ¬ (((57:ℕ), (0:ℚ)).2 < (score values k : ℚ) / (values.length : ℚ)) := by
      rw [h0]
      simp
    rw [if_neg hno]
    exact ih (fun x hx => hz x (List.mem_cons_of_mem _ hx))

end CellDetector

/-- Counterexample to C5 as stated: for the dimension list `[(8, 8)]` every
candidate in `[20, 120]` scores 0, so the maximal score is attained by the
smallest candidate 20 — yet the detector returns the initializer 57. -/
theorem C5_tie_break_counterexample :
    CellDetector.auto_detect_cell_units [((8:ℚ), 8)] = (57, 0) ∧
      (∀ j, 20 ≤ j → j ≤ 120 →
        CellDetector.score (CellDetector.allValues [((8:ℚ), 8)]) j = 0) ∧
      (57 : ℕ) ≠ 20 := by
  have hsc : ∀ j, 20 ≤ j → CellDetector.score (CellDetector.allValues [((8:ℚ), 8)]) j = 0 := by
    intro j hj
    have hv : CellDetector.allValues [((8:ℚ), 8)] = [8, 8] := rfl
    rw [hv]
    simp [CellDetector.score, List.filter, CellDetector.hitsCandidate_eight j hj]
  refine ⟨?_, fun j hj _ => hsc j hj, by decide⟩
  unfold CellDetector.auto_detect_cell_units
  rw [if_neg (by simp)]
  exact CellDetector.detectLoop_all_zero _ _
    (fun k hk => hsc k (List.mem_range'_1.mp hk).1)
